import Mathlib

/-!
Verification of the profile-classification pipeline described by the
repository's specification (standardize, reduce, cluster, label), together
with the lazy task-graph example from the environment notebook.

The repository's notebooks delegate every numerical primitive
(standard scaling, PCA, Gaussian mixtures, DBSCAN, delayed task graphs) to
external libraries; only the orchestrating calls appear in the source.
Each component below is therefore modelled from the specification's
component design, over exact rational arithmetic, and the spec's testable
properties are proved against these models.
-/

namespace Pipeline

/-! ## Standardizer

Modelled from the spec: `fit(matrix)` computes column-wise mean and
standard deviation and fails with `DegenerateFeatureError` if any column
has zero variance; `transform(matrix)` returns `(matrix - mean) / scale`
column-wise; `inverse_transform(matrix)` returns `matrix * scale + mean`.
The standard deviation of a rational column is in general irrational, so
the fitted parameters store the column means and variances; a scale vector
is any per-column positive square root of the variance vector.
-/

/-- Errors surfaced by `fit` operations, from the spec's error handling
design: `DegenerateFeatureError` when a feature column has zero variance,
`InsufficientRankError` when there are fewer samples than requested
components. -/
inductive FitError where
  | degenerateFeature
  | insufficientRank
  deriving DecidableEq, Repr

/-- Column-wise mean of an `n × m` sample matrix. -/
def colMean {n m : ℕ} (X : Matrix (Fin n) (Fin m) ℚ) (j : Fin m) : ℚ :=
  (∑ i, X i j) / n

/-- Column-wise (population) variance of an `n × m` sample matrix. -/
def colVar {n m : ℕ} (X : Matrix (Fin n) (Fin m) ℚ) (j : Fin m) : ℚ :=
  (∑ i, (X i j - colMean X j) ^ 2) / n

/-- Fitted standardization parameters: per-feature mean and variance
(the scale is the positive square root of the variance). -/
structure StdParams (m : ℕ) where
  mean : Fin m → ℚ
  var : Fin m → ℚ
  deriving DecidableEq

/-- Modelled from the spec: the Standardizer's `fit` computes the
column-wise statistics and fails with `DegenerateFeatureError` as soon as
some column has zero variance. -/
def stdFit {n m : ℕ} (X : Matrix (Fin n) (Fin m) ℚ) :
    Except FitError (StdParams m) :=
  if ∃ j, colVar X j = 0 then .error .degenerateFeature
  else .ok ⟨colMean X, colVar X⟩

/-- Modelled from the spec: `transform` returns `(matrix - mean) / scale`,
applied column-wise. -/
def stdTransform {n m : ℕ} (mean scale : Fin m → ℚ)
    (X : Matrix (Fin n) (Fin m) ℚ) : Matrix (Fin n) (Fin m) ℚ :=
  fun i j => (X i j - mean j) / scale j

/-- Modelled from the spec: `inverse_transform` returns
`matrix * scale + mean`. -/
def stdInverse {n m : ℕ} (mean scale : Fin m → ℚ)
    (X : Matrix (Fin n) (Fin m) ℚ) : Matrix (Fin n) (Fin m) ℚ :=
  fun i j => X i j * scale j + mean j

/-- A scale vector for fitted parameters: positive per-feature square root
of the fitted variance. -/
def IsScaleOf {m : ℕ} (p : StdParams m) (s : Fin m → ℚ) : Prop :=
  ∀ j, 0 < s j ∧ s j ^ 2 = p.var j

/-! ## Dimensionality Reducer: component-count selection and
explained-variance invariants

Modelled from the spec: `fit(standardized_matrix, variance_threshold)`
computes an orthogonal basis ranked by descending variance explained and
retains the smallest prefix of components whose cumulative
explained-variance fraction is at least `variance_threshold`.  The
eigendecomposition itself is a library primitive; the selection rule is
modelled over the list of per-component explained-variance fractions.
-/

/-- Cumulative explained-variance fraction of the first `c` components of
the variance-ranked list `v`. -/
def cumVar (v : List ℚ) (c : ℕ) : ℚ :=
  (v.take c).sum

/-- Modelled from the spec: the number of components the Reducer retains
for variance-ranked explained-variance fractions `v` and threshold `t`:
components are taken in order until the cumulative fraction reaches
`t`. -/
def nRetained (v : List ℚ) (t : ℚ) : ℕ :=
  match v with
  | [] => 0
  | a :: vs => if t ≤ a then 1 else nRetained vs (t - a) + 1

/-- Modelled from the spec: per-component explained-variance fractions of
a variance spectrum `lam` (each component's variance divided by the total
variance over all components). -/
def varianceRatios (lam : List ℚ) : List ℚ :=
  lam.map (fun x => x / lam.sum)

/-! ## Density Model (Gaussian Mixture): posteriors and hard labels

Modelled from the spec: `predict_proba(matrix)` returns the normalized
posterior responsibility per component per sample, and `predict(matrix)`
returns the arg-max component index per sample, breaking ties by lowest
index.  The Gaussian densities themselves are library primitives; the
model takes, for one sample, the fitted prior weights `w` and the
per-component density values `d` at that sample, and normalizes the
products `w k * d k` into posteriors.
-/

/-- Modelled from the spec: posterior responsibility of each of the `K`
components for one sample, as the normalized product of prior weight and
component density at the sample. -/
def predictProba {K : ℕ} (w d : Fin K → ℚ) : Fin K → ℚ :=
  fun k => w k * d k / ∑ j, w j * d j

/-- Linear scan keeping the current maximum, replacing it only on a
strictly larger value (so the first maximum encountered wins). -/
def scanMax {n : ℕ} (f : Fin n → ℚ) (l : List (Fin n)) (b : Fin n) :
    Fin n :=
  l.foldl (fun acc j => if f acc < f j then j else acc) b

/-- Arg-max index of `f` over `Fin (K + 1)`, scanning indices in
increasing order, as `numpy.argmax` does. -/
def argmaxIdx {K : ℕ} (f : Fin (K + 1) → ℚ) : Fin (K + 1) :=
  scanMax f (List.finRange (K + 1)) 0

/-- Modelled from the spec: the mixture model's `predict` returns the
arg-max component of the posterior vector of the sample. -/
def gmmPredict {K : ℕ} (w d : Fin (K + 1) → ℚ) : Fin (K + 1) :=
  argmaxIdx (predictProba w d)

/-! ## Dimensionality Reducer: projection and reconstruction

Modelled from the spec: `transform(matrix)` projects onto the retained
orthonormal component basis (a `C × M` matrix with orthonormal rows),
producing an `N × C` matrix, and `inverse_transform(reduced_matrix)`
reconstructs an approximate `N × M` matrix.
-/

/-- Modelled from the spec: projection of samples onto the retained
component basis `P` (rows are components). -/
def pcaTransform {N M C : ℕ} (P : Matrix (Fin C) (Fin M) ℚ)
    (X : Matrix (Fin N) (Fin M) ℚ) : Matrix (Fin N) (Fin C) ℚ :=
  X * P.transpose

/-- Modelled from the spec: reconstruction of samples from their reduced
coordinates. -/
def pcaInverse {N M C : ℕ} (P : Matrix (Fin C) (Fin M) ℚ)
    (Y : Matrix (Fin N) (Fin C) ℚ) : Matrix (Fin N) (Fin M) ℚ :=
  Y * P

/-- Total squared reconstruction error of the Reducer round trip on `X`
(the per-feature root-mean-square error of the spec is zero exactly when
this total is zero). -/
def sqErr {N M C : ℕ} (P : Matrix (Fin C) (Fin M) ℚ)
    (X : Matrix (Fin N) (Fin M) ℚ) : ℚ :=
  ∑ i, ∑ j, (pcaInverse P (pcaTransform P X) i j - X i j) ^ 2

/-! ## Density-Based Clusterer (DBSCAN-style)

Modelled from the spec: `fit(matrix, eps, min_samples)` counts, for each
sample, the neighbors within radius `eps` (itself included); a sample is
a core point if it has at least `min_samples` neighbors.  Core points
within `eps` of each other join the same cluster, clusters propagate
transitively through chains of core points, non-core points within `eps`
of a core point join that cluster as border points, and all other points
are labeled noise (`-1`).  Cluster IDs are assigned in discovery order
over the fixed sample order; border points tie-break to the
lowest-indexed core neighbor.  Samples are feature vectors of rationals
and radius comparison is by squared Euclidean distance.
-/

/-- Squared Euclidean distance between samples `i` and `j`. -/
def distSq {N d : ℕ} (pts : Fin N → Fin d → ℚ) (i j : Fin N) : ℚ :=
  ∑ k, (pts i k - pts j k) ^ 2

/-- Sample `j` is within radius `eps` of sample `i`. -/
def Near {N d : ℕ} (pts : Fin N → Fin d → ℚ) (eps : ℚ) (i j : Fin N) :
    Prop :=
  distSq pts i j ≤ eps ^ 2

instance {N d : ℕ} (pts : Fin N → Fin d → ℚ) (eps : ℚ) (i j : Fin N) :
    Decidable (Near pts eps i j) :=
  decidable_of_iff (distSq pts i j ≤ eps ^ 2) Iff.rfl

/-- The neighbors of sample `i` within radius `eps` (including `i`
itself). -/
def neighbors {N d : ℕ} (pts : Fin N → Fin d → ℚ) (eps : ℚ) (i : Fin N) :
    Finset (Fin N) :=
  Finset.univ.filter (fun j => Near pts eps i j)

/-- Number of neighbors of sample `i` within radius `eps`. -/
def neighborCount {N d : ℕ} (pts : Fin N → Fin d → ℚ) (eps : ℚ)
    (i : Fin N) : ℕ :=
  (neighbors pts eps i).card

/-- A core point has at least `minPts` neighbors within `eps`. -/
def IsCore {N d : ℕ} (pts : Fin N → Fin d → ℚ) (eps : ℚ) (minPts : ℕ)
    (i : Fin N) : Prop :=
  minPts ≤ neighborCount pts eps i

instance {N d : ℕ} (pts : Fin N → Fin d → ℚ) (eps : ℚ) (minPts : ℕ)
    (i : Fin N) : Decidable (IsCore pts eps minPts i) :=
  decidable_of_iff (minPts ≤ neighborCount pts eps i) Iff.rfl

/-- The set of core points. -/
def coreSet {N d : ℕ} (pts : Fin N → Fin d → ℚ) (eps : ℚ) (minPts : ℕ) :
    Finset (Fin N) :=
  Finset.univ.filter (IsCore pts eps minPts)

/-- One step of cluster propagation: add every core point within `eps`
of the current set. -/
def expandStep {N d : ℕ} (pts : Fin N → Fin d → ℚ) (eps : ℚ)
    (minPts : ℕ) (s : Finset (Fin N)) : Finset (Fin N) :=
  s ∪ (coreSet pts eps minPts).filter (fun j => ∃ i ∈ s, Near pts eps i j)

/-- The core points transitively reachable from sample `i` through
chains of core points within `eps` (with `i` itself); `N` propagation
steps saturate any chain among `N` samples. -/
def reachSet {N d : ℕ} (pts : Fin N → Fin d → ℚ) (eps : ℚ) (minPts : ℕ)
    (i : Fin N) : Finset (Fin N) :=
  (expandStep pts eps minPts)^[N] {i}

/-- Canonical representative of the cluster of core point `i`: the
lowest-indexed point of its reachable set. -/
def clusterRep {N d : ℕ} (pts : Fin N → Fin d → ℚ) (eps : ℚ)
    (minPts : ℕ) (i : Fin N) : Fin N :=
  ((reachSet pts eps minPts i).min).untop' i

/-- Representatives of all clusters. -/
def repSet {N d : ℕ} (pts : Fin N → Fin d → ℚ) (eps : ℚ) (minPts : ℕ) :
    Finset (Fin N) :=
  (coreSet pts eps minPts).image (clusterRep pts eps minPts)

/-- Cluster ID of the cluster represented by `clusterRep i`: its rank in
the discovery order over the fixed sample order. -/
def clusterId {N d : ℕ} (pts : Fin N → Fin d → ℚ) (eps : ℚ)
    (minPts : ℕ) (i : Fin N) : ℕ :=
  ((repSet pts eps minPts).filter
    (fun r => r < clusterRep pts eps minPts i)).card

/-- Modelled from the spec: the DBSCAN label of sample `i`: its cluster
ID if it is a core point; the cluster of its lowest-indexed core
neighbor if it is a border point; and the noise label `-1` otherwise. -/
def dbscanLabel {N d : ℕ} (pts : Fin N → Fin d → ℚ) (eps : ℚ)
    (minPts : ℕ) (i : Fin N) : ℤ :=
  if IsCore pts eps minPts i then clusterId pts eps minPts i
  else
    if h : ((coreSet pts eps minPts).filter (fun j => Near pts eps i j)).Nonempty
    then clusterId pts eps minPts
      (((coreSet pts eps minPts).filter (fun j => Near pts eps i j)).min' h)
    else -1

/-- The label vector over all samples. -/
def dbscanLabels {N d : ℕ} (pts : Fin N → Fin d → ℚ) (eps : ℚ)
    (minPts : ℕ) : List ℤ :=
  (List.finRange N).map (dbscanLabel pts eps minPts)

/-- Scenario dataset for the density-based clusterer: one dense blob
(three coincident samples) plus ten isolated outliers, each farther than
`eps = 1` from every other sample. -/
def pts13 : Fin 13 → Fin 1 → ℚ :=
  fun i _ => ![0, 0, 0, 10, 20, 30, 40, 50, 60, 70, 80, 90, 100] i

/-- Two samples, each farther than `eps = 1` from the other. -/
def pts2 : Fin 2 → Fin 1 → ℚ :=
  fun i _ => ![0, 5] i

/-- Pipeline configuration, from the spec's recognized options: cluster
count is fixed by the type below; `initStrategy` and `seed` capture the
mixture fit's initialization strategy and random seed. -/
structure PipelineConfig where
  varianceThreshold : ℚ
  eps : ℚ
  minSamples : ℕ
  initStrategy : ℕ
  seed : ℕ

/-- Modelled from the spec: the Pipeline Driver composes the fits in
sequence: fit the Standardizer on the sample matrix, select the retained
component count from the variance spectrum, fit the density-based
clusterer, and fit the mixture model (a seeded iterative library
primitive, passed in as a deterministic function `gmmFit` of the data,
the initialization strategy and the seed) and label every sample.  The
result collects all fitted parameters and label vectors. -/
def runPipeline {n m K : ℕ}
    (gmmFit : Matrix (Fin n) (Fin m) ℚ → ℕ → ℕ →
      (Fin (K + 1) → ℚ) × (Fin n → Fin (K + 1) → ℚ))
    (cfg : PipelineConfig) (X : Matrix (Fin n) (Fin m) ℚ)
    (spectrum : List ℚ) :
    Except FitError (StdParams m) × ℕ × List ℤ × List (Fin (K + 1)) :=
  let std := stdFit X
  let nc := nRetained spectrum cfg.varianceThreshold
  let db := dbscanLabels (fun i j => X i j) cfg.eps cfg.minSamples
  let wd := gmmFit X cfg.initStrategy cfg.seed
  let gm := (List.finRange n).map (fun i => gmmPredict wd.1 (wd.2 i))
  (std, nc, db, gm)

end Pipeline

namespace TaskGraph

/-! ## Lazy task graphs

The dummy functions `inc`, `dec` and `add` are defined in the environment
notebook (the `time.sleep` calls only pad the wall-clock benchmark and do
not affect the returned values).  The task-graph library's `delayed`
combinator and `compute` are external primitives; they are modelled from
the spec's description of lazy evaluation: `delayed f` builds a graph
node holding `f` and its (delayed) arguments, and `compute` forces the
whole graph.
-/

/-- The notebook function `inc`: returns `x + 1`. -/
def inc (x : ℤ) : ℤ := x + 1

/-- The notebook function `dec`: returns `x - 1`. -/
def dec (x : ℤ) : ℤ := x - 1

/-- The notebook function `add`: returns `x + y`. -/
def add (x y : ℤ) : ℤ := x + y

/-- Modelled from the spec: a delayed task graph over integer values; a
node is a literal value, a wrapped unary function applied to a delayed
argument, or a wrapped binary function applied to two delayed
arguments. -/
inductive Delayed where
  | value : ℤ → Delayed
  | unary : (ℤ → ℤ) → Delayed → Delayed
  | binary : (ℤ → ℤ → ℤ) → Delayed → Delayed → Delayed

/-- Modelled from the spec: `compute` forces a delayed graph, evaluating
each node's function on its forced arguments. -/
def compute : Delayed → ℤ
  | .value v => v
  | .unary f x => f (compute x)
  | .binary f x y => f (compute x) (compute y)

/-- Modelled from the spec: wrapping a unary function with `delayed`
makes calls build graph nodes instead of computing. -/
def delayed1 (f : ℤ → ℤ) (x : Delayed) : Delayed :=
  .unary f x

/-- Modelled from the spec: wrapping a binary function with `delayed`. -/
def delayed2 (f : ℤ → ℤ → ℤ) (x y : Delayed) : Delayed :=
  .binary f x y

end TaskGraph

namespace Pipeline

/-- C1: round trip of the Standardizer: for every matrix `X` with the same
column count as the training matrix `T` (enforced by the shared column
type `Fin m`), if `fit` succeeded on `T` with parameters `p` and `s` is
the fitted scale (positive square root of the fitted variance), then
`inverse_transform (transform X) = X`: transform computes
`(X - mean) / scale` column-wise and inverse_transform computes
`X * scale + mean`. Exact rational arithmetic stands in for
floating-point tolerance. -/
theorem std_roundtrip {n n' m : ℕ} (T : Matrix (Fin n) (Fin m) ℚ)
    (p : StdParams m) (s : Fin m → ℚ)
    (hfit : stdFit T = .ok p) (hs : IsScaleOf p s)
    (X : Matrix (Fin n') (Fin m) ℚ) :
    stdInverse p.mean s (stdTransform p.mean s X) = X := by
  funext i j
  have hpos : 0 < s j := (hs j).1
  have hne : s j ≠ 0 := ne_of_gt hpos
  simp only [stdInverse, stdTransform]
  field_simp

/-- Witness for C1 at a concrete training matrix and input: `T` has the
single column `(0, 2)` (mean `1`, variance `1`, scale `1`), and the round
trip is checked on the column `(5, 7)`. -/
theorem std_roundtrip_witness :
    stdFit (Matrix.of ![![(0 : ℚ)], ![2]]) =
        .ok ⟨colMean (Matrix.of ![![(0 : ℚ)], ![2]]),
             colVar (Matrix.of ![![(0 : ℚ)], ![2]])⟩ ∧
    IsScaleOf ⟨colMean (Matrix.of ![![(0 : ℚ)], ![2]]),
               colVar (Matrix.of ![![(0 : ℚ)], ![2]])⟩ (fun _ => 1) ∧
    stdInverse (colMean (Matrix.of ![![(0 : ℚ)], ![2]])) (fun _ => 1)
      (stdTransform (colMean (Matrix.of ![![(0 : ℚ)], ![2]])) (fun _ => 1)
        (Matrix.of ![![(5 : ℚ)], ![7]])) = Matrix.of ![![(5 : ℚ)], ![7]] := by
  have hvar : ¬ ∃ j, colVar (Matrix.of ![![(0 : ℚ)], ![2]]) j = 0 :=
    of_decide_eq_true (by with_unfolding_all rfl)
  have hscale' : ∀ j : Fin 1,
      (0 : ℚ) < 1 ∧ (1 : ℚ) ^ 2 = colVar (Matrix.of ![![(0 : ℚ)], ![2]]) j :=
    of_decide_eq_true (by with_unfolding_all rfl)
  have hscale : IsScaleOf
      ⟨colMean (Matrix.of ![![(0 : ℚ)], ![2]]),
       colVar (Matrix.of ![![(0 : ℚ)], ![2]])⟩ (fun _ => 1) := hscale'
  refine ⟨by rw [stdFit, if_neg hvar], hscale, ?_⟩
  exact std_roundtrip (Matrix.of ![![(0 : ℚ)], ![2]]) _ (fun _ => 1)
    (by rw [stdFit, if_neg hvar]) hscale (Matrix.of ![![(5 : ℚ)], ![7]])

/-- C3: the Standardizer's `fit` fails with `DegenerateFeatureError`
whenever some column of the input has zero variance, and the failure is
surfaced to the caller as the result of `fit` (no parameters are
produced). -/
theorem std_fit_degenerate {n m : ℕ} (X : Matrix (Fin n) (Fin m) ℚ)
    (j : Fin m) (hj : colVar X j = 0) :
    stdFit X = .error .degenerateFeature ∧
      ∀ p : StdParams m, stdFit X ≠ .ok p := by
  have hex : ∃ j, colVar X j = 0 := ⟨j, hj⟩
  constructor
  · simp [stdFit, hex]
  · intro p
    simp [stdFit, hex]

/-- Witness for C3 at a concrete matrix: the second column of
`[[1, 4], [3, 4]]` is constant, so its variance is zero and `fit`
fails. -/
theorem std_fit_degenerate_witness :
    colVar (Matrix.of ![![(1 : ℚ), 4], ![3, 4]]) 1 = 0 ∧
    stdFit (Matrix.of ![![(1 : ℚ), 4], ![3, 4]]) =
      .error .degenerateFeature :=
  ⟨of_decide_eq_true (by with_unfolding_all rfl),
    (std_fit_degenerate (Matrix.of ![![(1 : ℚ), 4], ![3, 4]]) 1
      (of_decide_eq_true (by with_unfolding_all rfl))).1⟩

/-- Prefix sums of a list of nonnegative rationals are bounded by the
total sum. -/
theorem cumVar_le_sum (v : List ℚ) (hv : ∀ x ∈ v, 0 ≤ x) (c : ℕ) :
    cumVar v c ≤ v.sum := by
  have h := List.sum_take_add_sum_drop v c
  have hd : 0 ≤ (v.drop c).sum :=
    List.sum_nonneg fun x hx => hv x (List.mem_of_mem_drop hx)
  unfold cumVar
  linarith

theorem nRetained_correct (v : List ℚ) (t : ℚ) (ht : 0 < t)
    (hts : t ≤ v.sum) :
    t ≤ cumVar v (nRetained v t) ∧ ∀ c < nRetained v t, cumVar v c < t := by
  induction v generalizing t with
  | nil =>
    simp only [List.sum_nil] at hts
    exact absurd (lt_of_lt_of_le ht hts) (lt_irrefl 0)
  | cons a vs ih =>
    by_cases ha : t ≤ a
    · refine ⟨?_, ?_⟩
      · simpa [nRetained, cumVar, ha] using ha
      · intro c hc
        simp only [nRetained, if_pos ha] at hc
        interval_cases c
        simpa [cumVar] using ht
    · have ha' : a < t := lt_of_not_le ha
      have hts' : t - a ≤ vs.sum := by
        simp only [List.sum_cons] at hts
        linarith
      obtain ⟨h1, h2⟩ := ih (t - a) (by linarith) hts'
      refine ⟨?_, ?_⟩
      · simp only [nRetained, if_neg ha, cumVar, List.take_succ_cons,
          List.sum_cons]
        simp only [cumVar] at h1
        linarith
      · intro c hc
        simp only [nRetained, if_neg ha] at hc
        match c with
        | 0 => simpa [cumVar] using ht
        | c + 1 =>
          have hc' : c < nRetained vs (t - a) := by omega
          have := h2 c hc'
          simp only [cumVar, List.take_succ_cons, List.sum_cons]
          simp only [cumVar] at this
          linarith

/-- C2: when the Reducer is fit with a variance threshold `t ∈ (0, 1]` on
variance-ranked explained-variance fractions summing to `1` (the full
spectrum of a standardized matrix), the number of retained components
`nRetained v t` is the smallest prefix length whose cumulative
explained-variance fraction is at least `t`: the cumulative fraction at
`nRetained v t` reaches `t`, and every strictly shorter prefix stays
below `t`. -/
theorem reducer_least_components (v : List ℚ) (t : ℚ) (ht0 : 0 < t)
    (ht1 : t ≤ 1) (hsum : v.sum = 1) :
    t ≤ cumVar v (nRetained v t) ∧ ∀ c < nRetained v t, cumVar v c < t :=
  nRetained_correct v t ht0 (hsum ▸ ht1)

/-- Witness for C2 at a concrete spectrum: fractions
`[1/2, 3/10, 199/1000, 1/1000]` with threshold `999/1000` retain exactly
three components. -/
theorem reducer_least_components_witness :
    nRetained [1/2, 3/10, 199/1000, 1/1000] (999/1000 : ℚ) = 3 ∧
    ((999/1000 : ℚ) ≤
        cumVar [1/2, 3/10, 199/1000, 1/1000]
          (nRetained [1/2, 3/10, 199/1000, 1/1000] (999/1000 : ℚ)) ∧
      ∀ c < nRetained [1/2, 3/10, 199/1000, 1/1000] (999/1000 : ℚ),
        cumVar [1/2, 3/10, 199/1000, 1/1000] c < 999/1000) :=
  ⟨of_decide_eq_true (by with_unfolding_all rfl),
    reducer_least_components [1/2, 3/10, 199/1000, 1/1000] (999/1000)
      (by norm_num) (by norm_num)
      (of_decide_eq_true (by with_unfolding_all rfl))⟩

/-- C9: after fitting the Reducer on a variance spectrum `lam` of
nonnegative component variances with positive total, each per-component
explained-variance fraction lies in `[0, 1]`, the fractions sum to at
most `1`, and the cumulative explained-variance fraction is
non-decreasing in the number of retained components. -/
theorem variance_ratio_invariants (lam : List ℚ)
    (hnn : ∀ x ∈ lam, 0 ≤ x) (hpos : 0 < lam.sum) :
    (∀ r ∈ varianceRatios lam, 0 ≤ r ∧ r ≤ 1) ∧
    (varianceRatios lam).sum ≤ 1 ∧
    (∀ c, cumVar (varianceRatios lam) c ≤ 1) ∧
    (∀ c, cumVar (varianceRatios lam) c ≤
      cumVar (varianceRatios lam) (c + 1)) := by
  have hrn : ∀ r ∈ varianceRatios lam, 0 ≤ r := by
    intro r hr
    obtain ⟨x, hx, rfl⟩ := List.mem_map.mp hr
    exact div_nonneg (hnn x hx) (le_of_lt hpos)
  have hdiv : ∀ (l : List ℚ) (S : ℚ), (l.map (fun x => x / S)).sum = l.sum / S := by
    intro l S
    induction l with
    | nil => simp
    | cons a l ihl => simp [ihl, add_div]
  have hsum : (varianceRatios lam).sum = 1 := by
    rw [varianceRatios, hdiv, div_self (ne_of_gt hpos)]
  refine ⟨?_, le_of_eq hsum, ?_, ?_⟩
  · intro r hr
    refine ⟨hrn r hr, ?_⟩
    obtain ⟨x, hx, rfl⟩ := List.mem_map.mp hr
    rw [div_le_one hpos]
    exact List.single_le_sum hnn x hx
  · intro c
    calc cumVar (varianceRatios lam) c ≤ (varianceRatios lam).sum :=
          cumVar_le_sum _ hrn c
      _ = 1 := hsum
  · intro c
    have h := cumVar_le_sum ((varianceRatios lam).take (c + 1))
      (fun x hx => hrn x (List.mem_of_mem_take hx)) c
    unfold cumVar at h ⊢
    rwa [List.take_take, Nat.min_eq_left (Nat.le_succ c)] at h

/-- Witness for C9 at a concrete spectrum `[2, 1, 1]`: fractions
`[1/2, 1/4, 1/4]`. -/
theorem variance_ratio_invariants_witness :
    varianceRatios [2, 1, 1] = [1/2, 1/4, 1/4] ∧
    ((∀ r ∈ varianceRatios [2, 1, 1], 0 ≤ r ∧ r ≤ 1) ∧
      (varianceRatios [2, 1, 1]).sum ≤ 1 ∧
      (∀ c, cumVar (varianceRatios [2, 1, 1]) c ≤ 1) ∧
      (∀ c, cumVar (varianceRatios [2, 1, 1]) c ≤
        cumVar (varianceRatios [2, 1, 1]) (c + 1))) :=
  ⟨of_decide_eq_true (by with_unfolding_all rfl),
    variance_ratio_invariants [2, 1, 1]
      (of_decide_eq_true (by with_unfolding_all rfl)) (by norm_num)⟩

theorem scanMax_spec {n : ℕ} (f : Fin n → ℚ) (l : List (Fin n)) (b : Fin n)
    (hs : l.Pairwise (· < ·)) (hb : ∀ j ∈ l, b < j) :
    (scanMax f l b = b ∨
      (scanMax f l b ∈ l ∧ f b < f (scanMax f l b))) ∧
    f b ≤ f (scanMax f l b) ∧
    (∀ j ∈ l, f j ≤ f (scanMax f l b)) ∧
    (∀ j, j = b ∨ j ∈ l → f j = f (scanMax f l b) → scanMax f l b ≤ j) := by
  induction l generalizing b with
  | nil =>
    refine ⟨Or.inl rfl, le_refl _, by simp, ?_⟩
    intro j hj hf
    rcases hj with rfl | hj
    · exact le_refl _
    · simp at hj
  | cons a l' ih =>
    have hstep : scanMax f (a :: l') b =
        scanMax f l' (if f b < f a then a else b) := by
      simp [scanMax, List.foldl_cons]
    have hs' : l'.Pairwise (· < ·) := hs.tail
    have ha' : ∀ j ∈ l', a < j := fun j hj => (List.pairwise_cons.mp hs).1 j hj
    by_cases hba : f b < f a
    · have hb' : ∀ j ∈ l', a < j := ha'
      obtain ⟨hmem, hle, hmax, htie⟩ := ih a hs' hb'
      rw [if_pos hba] at hstep
      rw [hstep]
      refine ⟨?_, ?_, ?_, ?_⟩
      · rcases hmem with h | ⟨h1, h2⟩
        · exact Or.inr ⟨by rw [h]; exact List.mem_cons_self a l', by rw [h]; exact hba⟩
        · exact Or.inr ⟨List.mem_cons_of_mem a h1, lt_trans hba h2⟩
      · exact le_of_lt (lt_of_lt_of_le hba hle)
      · intro j hj
        rcases List.mem_cons.mp hj with rfl | hj'
        · exact hle
        · exact hmax j hj'
      · intro j hj hf
        rcases hj with rfl | hj'
        · exact absurd hf (ne_of_lt (lt_of_lt_of_le hba hle))
        · rcases List.mem_cons.mp hj' with rfl | hj''
          · exact htie j (Or.inl rfl) hf
          · exact htie j (Or.inr hj'') hf
    · have hab : f a ≤ f b := le_of_not_lt hba
      have hb' : ∀ j ∈ l', b < j :=
        fun j hj => hb j (List.mem_cons_of_mem a hj)
      obtain ⟨hmem, hle, hmax, htie⟩ := ih b hs' hb'
      rw [if_neg hba] at hstep
      rw [hstep]
      refine ⟨?_, hle, ?_, ?_⟩
      · rcases hmem with h | ⟨h1, h2⟩
        · exact Or.inl h
        · exact Or.inr ⟨List.mem_cons_of_mem a h1, h2⟩
      · intro j hj
        rcases List.mem_cons.mp hj with rfl | hj'
        · exact le_trans hab hle
        · exact hmax j hj'
      · intro j hj hf
        rcases hj with rfl | hj'
        · exact htie j (Or.inl rfl) hf
        · rcases List.mem_cons.mp hj' with rfl | hj''
          · rcases hmem with h | ⟨h1, h2⟩
            · rw [h]
              exact le_of_lt (hb j (List.mem_cons_self j l'))
            · exact absurd hf (ne_of_lt (lt_of_le_of_lt hab h2))
          · exact htie j (Or.inr hj'') hf

theorem argmaxIdx_spec {K : ℕ} (f : Fin (K + 1) → ℚ) :
    (∀ j, f j ≤ f (argmaxIdx f)) ∧
    (∀ j, f j = f (argmaxIdx f) → argmaxIdx f ≤ j) := by
  have hsplit : List.finRange (K + 1) =
      0 :: (List.finRange K).map Fin.succ := List.finRange_succ K
  have hstep : argmaxIdx f = scanMax f ((List.finRange K).map Fin.succ) 0 := by
    rw [argmaxIdx, hsplit]
    simp [scanMax, List.foldl_cons]
  have hs : ((List.finRange K).map Fin.succ).Pairwise (· < ·) :=
    (List.pairwise_lt_finRange K).map Fin.succ
      (fun a b h => Fin.succ_lt_succ_iff.mpr h)
  have hb : ∀ j ∈ (List.finRange K).map Fin.succ, (0 : Fin (K + 1)) < j := by
    intro j hj
    obtain ⟨i, _, rfl⟩ := List.mem_map.mp hj
    exact Fin.succ_pos i
  obtain ⟨_, hle, hmax, htie⟩ :=
    scanMax_spec f ((List.finRange K).map Fin.succ) 0 hs hb
  have hcover : ∀ j : Fin (K + 1),
      j = 0 ∨ j ∈ (List.finRange K).map Fin.succ := by
    intro j
    rcases Fin.eq_zero_or_eq_succ j with h | ⟨i, rfl⟩
    · exact Or.inl h
    · exact Or.inr (List.mem_map.mpr ⟨i, List.mem_finRange i, rfl⟩)
  constructor
  · intro j
    rw [hstep]
    rcases hcover j with rfl | hj
    · exact hle
    · exact hmax j hj
  · intro j hf
    rw [hstep] at hf ⊢
    exact htie j (hcover j) hf

/-- C5: for every sample handed to the fitted mixture model's
`predict_proba` (nonnegative prior weights and density values, with a
positive normalizing constant), the returned posterior vector has `K`
entries each in `[0, 1]` and the entries sum to exactly `1`. -/
theorem gmm_posterior_invariants {K : ℕ} (w d : Fin K → ℚ)
    (hw : ∀ k, 0 ≤ w k) (hd : ∀ k, 0 ≤ d k)
    (hpos : 0 < ∑ j, w j * d j) :
    (∀ k, 0 ≤ predictProba w d k ∧ predictProba w d k ≤ 1) ∧
    ∑ k, predictProba w d k = 1 := by
  constructor
  · intro k
    constructor
    · exact div_nonneg (mul_nonneg (hw k) (hd k)) (le_of_lt hpos)
    · rw [predictProba, div_le_one hpos]
      exact Finset.single_le_sum
        (fun j _ => mul_nonneg (hw j) (hd j)) (Finset.mem_univ k)
  · simp only [predictProba]
    rw [← Finset.sum_div, div_self (ne_of_gt hpos)]

/-- Witness for C5 at `K = 2`, weights `(1/2, 1/2)` and densities
`(1, 3)`: the posteriors are `(1/4, 3/4)`. -/
theorem gmm_posterior_invariants_witness :
    predictProba ![(1 : ℚ)/2, 1/2] ![1, 3] = ![1/4, 3/4] ∧
    ((∀ k, 0 ≤ predictProba ![(1 : ℚ)/2, 1/2] ![1, 3] k ∧
        predictProba ![(1 : ℚ)/2, 1/2] ![1, 3] k ≤ 1) ∧
      ∑ k, predictProba ![(1 : ℚ)/2, 1/2] ![1, 3] k = 1) :=
  ⟨of_decide_eq_true (by with_unfolding_all rfl),
    gmm_posterior_invariants ![(1 : ℚ)/2, 1/2] ![1, 3]
      (of_decide_eq_true (by with_unfolding_all rfl))
      (of_decide_eq_true (by with_unfolding_all rfl))
      (of_decide_eq_true (by with_unfolding_all rfl))⟩

/-- C6: for every sample, the hard label returned by the mixture model's
`predict` is the arg-max of the sample's posterior vector from
`predict_proba`: every posterior is at most the posterior at the label,
and among components tying for the maximum posterior the label is the
lowest index. -/
theorem gmm_predict_argmax {K : ℕ} (w d : Fin (K + 1) → ℚ) :
    gmmPredict w d = argmaxIdx (predictProba w d) ∧
    (∀ j, predictProba w d j ≤ predictProba w d (gmmPredict w d)) ∧
    (∀ j, predictProba w d j = predictProba w d (gmmPredict w d) →
      gmmPredict w d ≤ j) :=
  ⟨rfl, (argmaxIdx_spec (predictProba w d)).1,
    (argmaxIdx_spec (predictProba w d)).2⟩

theorem sqErr_eq_zero_iff {N M C : ℕ} (P : Matrix (Fin C) (Fin M) ℚ)
    (X : Matrix (Fin N) (Fin M) ℚ) :
    sqErr P X = 0 ↔ pcaInverse P (pcaTransform P X) = X := by
  constructor
  · intro h
    have hrow := (Finset.sum_eq_zero_iff_of_nonneg
      (fun i _ => Finset.sum_nonneg fun j _ => sq_nonneg _)).mp h
    funext i j
    have hcell := (Finset.sum_eq_zero_iff_of_nonneg
      (fun j _ => sq_nonneg _)).mp (hrow i (Finset.mem_univ i)) j
      (Finset.mem_univ j)
    have := pow_eq_zero_iff (n := 2) (by norm_num) |>.mp hcell
    linarith [this]
  · intro h
    unfold sqErr
    rw [h]
    simp

theorem nRetained_full (v : List ℚ) (hv : ∀ x ∈ v, 0 < x) :
    nRetained v v.sum = v.length := by
  induction v with
  | nil => simp [nRetained]
  | cons a vs ih =>
    by_cases hvs : vs = []
    · subst hvs
      simp [nRetained]
    · have hpos : 0 < vs.sum :=
        List.sum_pos vs (fun x hx => hv x (List.mem_cons_of_mem a hx)) hvs
      have hcond : ¬ (a :: vs).sum ≤ a := by
        simp only [List.sum_cons]
        linarith
      have harg : (a :: vs).sum - a = vs.sum := by
        simp only [List.sum_cons]
        ring
      simp only [nRetained, if_neg hcond, harg, List.length_cons]
      rw [ih fun x hx => hv x (List.mem_cons_of_mem a hx)]

/-- C7: reconstruction behaviour of the Reducer.  First, with
`variance_threshold = 1.0` and no rank deficiency (every component of the
full spectrum explains positive variance), all components are retained.
Second, with the full square orthonormal basis retained, the Reducer
round trip reconstructs every matrix exactly (squared reconstruction
error zero, hence per-feature root-mean-square error zero).  Third, the
error is nonzero whenever fewer components than features are retained
(`C < M`) and `X` has no rank deficiency (it admits a left inverse, i.e.
full column rank). -/
theorem pca_reconstruction :
    (∀ v : List ℚ, (∀ x ∈ v, 0 < x) → v.sum = 1 →
      nRetained v 1 = v.length) ∧
    (∀ (N M : ℕ) (P : Matrix (Fin M) (Fin M) ℚ)
      (X : Matrix (Fin N) (Fin M) ℚ), P * P.transpose = 1 →
      sqErr P X = 0) ∧
    (∀ (N M C : ℕ) (P : Matrix (Fin C) (Fin M) ℚ)
      (X : Matrix (Fin N) (Fin M) ℚ) (B : Matrix (Fin M) (Fin N) ℚ),
      C < M → B * X = 1 → sqErr P X ≠ 0) := by
  refine ⟨?_, ?_, ?_⟩
  · intro v hv hsum
    have := nRetained_full v hv
    rwa [hsum] at this
  · intro N M P X hP
    rw [sqErr_eq_zero_iff]
    unfold pcaInverse pcaTransform
    rw [Matrix.mul_assoc, Matrix.mul_eq_one_comm.mp hP, Matrix.mul_one]
  · intro N M C P X B hCM hB h0
    have hrec : X * (P.transpose * P) = X := by
      have := (sqErr_eq_zero_iff P X).mp h0
      unfold pcaInverse pcaTransform at this
      rwa [Matrix.mul_assoc] at this
    have hPP : P.transpose * P = 1 := by
      have h1 : B * (X * (P.transpose * P)) = B * X := by rw [hrec]
      rwa [← Matrix.mul_assoc, hB, Matrix.one_mul] at h1
    have hrank1 : (P.transpose * P).rank = M := by
      rw [hPP, Matrix.rank_one, Fintype.card_fin]
    have hrank2 : (P.transpose * P).rank ≤ C :=
      le_trans (Matrix.rank_mul_le_left P.transpose P)
        (le_trans (Matrix.rank_le_card_width P.transpose)
          (le_of_eq (Fintype.card_fin C)))
    omega

/-- Witness for C7: threshold `1` retains both components of the spectrum
`[1/2, 1/2]`; the full basis `[[1]]` reconstructs `[[3]]` exactly; and
projecting the identity on two features onto the single component
`[[1, 0]]` leaves a nonzero reconstruction error. -/
theorem pca_reconstruction_witness :
    ((∀ x ∈ [(1 : ℚ)/2, 1/2], 0 < x) ∧ [(1 : ℚ)/2, 1/2].sum = 1 ∧
      nRetained [(1 : ℚ)/2, 1/2] 1 = 2) ∧
    ((Matrix.of ![![(1 : ℚ)]]) * (Matrix.of ![![(1 : ℚ)]]).transpose = 1 ∧
      sqErr (Matrix.of ![![(1 : ℚ)]]) (Matrix.of ![![(3 : ℚ)]]) = 0) ∧
    ((1 : ℕ) < 2 ∧
      (1 : Matrix (Fin 2) (Fin 2) ℚ) * (1 : Matrix (Fin 2) (Fin 2) ℚ) = 1 ∧
      sqErr (Matrix.of ![![(1 : ℚ), 0]]) (1 : Matrix (Fin 2) (Fin 2) ℚ) ≠ 0) := by
  obtain ⟨h1, h2, h3⟩ := pca_reconstruction
  refine ⟨⟨of_decide_eq_true (by with_unfolding_all rfl),
      of_decide_eq_true (by with_unfolding_all rfl), ?_⟩,
    ⟨of_decide_eq_true (by with_unfolding_all rfl), ?_⟩,
    ⟨by norm_num, Matrix.one_mul 1, ?_⟩⟩
  · have := h1 [(1 : ℚ)/2, 1/2]
      (of_decide_eq_true (by with_unfolding_all rfl))
      (of_decide_eq_true (by with_unfolding_all rfl))
    simpa using this
  · exact h2 1 1 (Matrix.of ![![(1 : ℚ)]]) (Matrix.of ![![(3 : ℚ)]])
      (of_decide_eq_true (by with_unfolding_all rfl))
  · exact h3 2 2 1 (Matrix.of ![![(1 : ℚ), 0]]) 1 1 (by norm_num)
      (Matrix.one_mul 1)

/-- Every sample neighbors itself. -/
theorem near_self {N d : ℕ} (pts : Fin N → Fin d → ℚ) (eps : ℚ)
    (i : Fin N) : Near pts eps i i := by
  unfold Near distSq
  simp [sq_nonneg]

/-- C8 counterexample: with `min_samples = 1` a sample farther than
`eps` from every other sample is still a core point (it neighbors
itself), so it founds its own cluster instead of receiving the noise
label `-1`; the claim's blanket noise statement fails at this input. -/
theorem dbscan_isolated_core_counterexample :
    (∀ j : Fin 2, j ≠ 0 → ¬ Near pts2 1 0 j) ∧
    IsCore pts2 1 1 0 ∧
    dbscanLabel pts2 1 1 0 = 0 ∧
    dbscanLabel pts2 1 1 0 ≠ -1 :=
  ⟨of_decide_eq_true (by with_unfolding_all rfl),
    of_decide_eq_true (by with_unfolding_all rfl),
    of_decide_eq_true (by with_unfolding_all rfl),
    of_decide_eq_true (by with_unfolding_all rfl)⟩

/-- C8 (amended): a sample is a core point exactly when it has at least
`min_samples` neighbors within radius `eps`, counting itself; provided
`min_samples ≥ 2`, every sample farther than `eps` from all other
samples receives the noise label `-1`; and on the dataset of one dense
blob plus ten isolated outliers, with `eps = 1` and `min_samples = 2`,
all ten outliers are labeled `-1` and the blob forms exactly one
cluster. -/
theorem dbscan_core_noise_blob :
    (∀ (N d : ℕ) (pts : Fin N → Fin d → ℚ) (eps : ℚ) (minPts : ℕ)
      (i : Fin N),
      (IsCore pts eps minPts i ↔ minPts ≤ (neighbors pts eps i).card) ∧
      i ∈ neighbors pts eps i) ∧
    (∀ (N d : ℕ) (pts : Fin N → Fin d → ℚ) (eps : ℚ) (minPts : ℕ)
      (i : Fin N), 2 ≤ minPts → (∀ j, j ≠ i → ¬ Near pts eps i j) →
      dbscanLabel pts eps minPts i = -1) ∧
    ((∀ i j : Fin 13, i.val < 3 → j.val < 3 → Near pts13 1 i j) ∧
      (∀ i : Fin 13, 3 ≤ i.val → ∀ j, j ≠ i → ¬ Near pts13 1 i j) ∧
      dbscanLabels pts13 1 2 =
        [0, 0, 0, -1, -1, -1, -1, -1, -1, -1, -1, -1, -1] ∧
      ((dbscanLabels pts13 1 2).filter (fun l => l != -1)).toFinset.card
        = 1) := by
  refine ⟨?_, ?_, ?_, ?_, ?_, ?_⟩
  · intro N d pts eps minPts i
    refine ⟨Iff.rfl, ?_⟩
    simp only [neighbors, Finset.mem_filter, Finset.mem_univ, true_and]
    exact near_self pts eps i
  · intro N d pts eps minPts i hmin hiso
    have hnbrs : neighbors pts eps i = {i} := by
      ext j
      simp only [neighbors, Finset.mem_filter, Finset.mem_univ, true_and,
        Finset.mem_singleton]
      constructor
      · intro hj
        by_contra hne
        exact hiso j hne hj
      · rintro rfl
        exact near_self pts eps _
    have hcore : ¬ IsCore pts eps minPts i := by
      rw [IsCore, neighborCount, hnbrs, Finset.card_singleton]
      omega
    have hempty :
        ¬ ((coreSet pts eps minPts).filter
            (fun j => Near pts eps i j)).Nonempty := by
      rw [Finset.filter_nonempty_iff]
      rintro ⟨j, hjcore, hjnear⟩
      rcases eq_or_ne j i with rfl | hne
      · exact hcore (by simpa [coreSet, Finset.mem_filter] using hjcore)
      · exact hiso j hne hjnear
    rw [dbscanLabel, if_neg hcore, dif_neg hempty]
  · exact of_decide_eq_true (by with_unfolding_all rfl)
  · exact of_decide_eq_true (by with_unfolding_all rfl)
  · exact of_decide_eq_true (by with_unfolding_all rfl)
  · exact of_decide_eq_true (by with_unfolding_all rfl)

/-- Witness for C8 (amended) at concrete inputs: with `min_samples = 2`
the isolated sample `0` of `pts2` is noise, and sample `0` of `pts13` is
core with three neighbors (itself counted). -/
theorem dbscan_core_noise_blob_witness :
    (IsCore pts13 1 2 0 ∧ (0 : Fin 13) ∈ neighbors pts13 1 0) ∧
    ((2 : ℕ) ≤ 2 ∧ (∀ j : Fin 2, j ≠ 0 → ¬ Near pts2 1 0 j) ∧
      dbscanLabel pts2 1 2 0 = -1) := by
  obtain ⟨ha, hb, _⟩ := dbscan_core_noise_blob
  have hiso : ∀ j : Fin 2, j ≠ 0 → ¬ Near pts2 1 0 j :=
    of_decide_eq_true (by with_unfolding_all rfl)
  refine ⟨⟨?_, (ha 13 1 pts13 1 2 0).2⟩,
    le_refl 2, hiso, hb 2 1 pts2 1 2 0 (le_refl 2) hiso⟩
  exact (ha 13 1 pts13 1 2 0).1.mpr
    (of_decide_eq_true (by with_unfolding_all rfl))

/-- C4: two-run determinism of the pipeline.  Re-running the composed
fits (standardizer, reducer selection, density-based clusterer, seeded
mixture fit and labeling) on the same input matrix, the same variance
spectrum, the same configuration (same `init_strategy` and same seed)
yields identical fitted parameters and identical labels: every stage is
a pure function of its inputs. -/
theorem pipeline_fit_deterministic {n m K : ℕ}
    (gmmFit : Matrix (Fin n) (Fin m) ℚ → ℕ → ℕ →
      (Fin (K + 1) → ℚ) × (Fin n → Fin (K + 1) → ℚ))
    (cfg cfg' : PipelineConfig) (X X' : Matrix (Fin n) (Fin m) ℚ)
    (v v' : List ℚ) (hcfg : cfg = cfg') (hX : X = X') (hv : v = v') :
    runPipeline gmmFit cfg X v = runPipeline gmmFit cfg' X' v' := by
  subst hcfg
  subst hX
  subst hv
  rfl

/-- Witness for C4 at a concrete run: a two-sample one-feature matrix, a
one-component spectrum, a constant mixture fit, and a concrete
configuration, run twice. -/
theorem pipeline_fit_deterministic_witness :
    runPipeline (K := 0) (fun _ _ _ => (fun _ => 1, fun _ _ => 1))
      ⟨999/1000, 1, 2, 0, 42⟩ (Matrix.of ![![(0 : ℚ)], ![2]]) [1] =
    runPipeline (K := 0) (fun _ _ _ => (fun _ => 1, fun _ _ => 1))
      ⟨999/1000, 1, 2, 0, 42⟩ (Matrix.of ![![(0 : ℚ)], ![2]]) [1] :=
  pipeline_fit_deterministic (fun _ _ _ => (fun _ => 1, fun _ _ => 1))
    ⟨999/1000, 1, 2, 0, 42⟩ ⟨999/1000, 1, 2, 0, 42⟩
    (Matrix.of ![![(0 : ℚ)], ![2]]) (Matrix.of ![![(0 : ℚ)], ![2]])
    [1] [1] rfl rfl rfl

/-- Witness for C6 at a concrete sample where components `0` and `1`
tie for the maximum posterior (`w = (1/2, 1/2)`, `d = (1, 1)`): the
returned hard label is the lowest tying index `0`, and it dominates
every posterior. -/
theorem gmm_predict_argmax_witness :
    gmmPredict ![(1 : ℚ)/2, 1/2] ![1, 1] = 0 ∧
    predictProba ![(1 : ℚ)/2, 1/2] ![1, 1] 1 =
      predictProba ![(1 : ℚ)/2, 1/2] ![1, 1] 0 ∧
    (∀ j, predictProba ![(1 : ℚ)/2, 1/2] ![1, 1] j ≤
      predictProba ![(1 : ℚ)/2, 1/2] ![1, 1]
        (gmmPredict ![(1 : ℚ)/2, 1/2] ![1, 1])) :=
  ⟨of_decide_eq_true (by with_unfolding_all rfl),
    of_decide_eq_true (by with_unfolding_all rfl),
    (gmm_predict_argmax ![(1 : ℚ)/2, 1/2] ![1, 1]).2.1⟩

end Pipeline

namespace TaskGraph

/-- C10: the lazy graph `z = add(inc(a), dec(b))` built from the
`delayed`-wrapped functions computes, once forced, the same value as the
eager composition, namely `a + b`; in particular `add(inc(1), dec(2))`
evaluates to `3` both eagerly and through the graph. -/
theorem delayed_graph_equiv :
    (∀ a b : ℤ,
      compute (delayed2 add (delayed1 inc (.value a))
        (delayed1 dec (.value b))) = add (inc a) (dec b) ∧
      add (inc a) (dec b) = a + b) ∧
    add (inc 1) (dec 2) = 3 ∧
    compute (delayed2 add (delayed1 inc (.value 1))
      (delayed1 dec (.value 2))) = 3 := by
  refine ⟨fun a b => ⟨rfl, ?_⟩, rfl, rfl⟩
  unfold add inc dec
  ring

end TaskGraph
